import Mathlib

/-!
Shallow embedding of `hgsubtree/subtree.py` (the `subpull` command of the
hg-subtree Mercurial extension) together with theorems about its behaviour.

The embedding follows the source file closely:
* configuration records (`Subtree`) model the per-section dictionaries
  produced by `_parse_hgsubtree`;
* `_destinations` is a direct translation of the helper of the same name;
* the file-placement step (lines 126-142 of the source) is modelled at the
  level of individual tracked files (`Working`), with the Mercurial
  `rename`/`copy` primitives modelled per their documented semantics
  (`force=False`: an existing destination file is not overwritten and the
  offending source is skipped);
* the orchestrator `subpull` is modelled as a deterministic interpreter over
  an abstract repository state (`Repo`) plus a `VcsOracle` supplying the
  outcomes of the external Mercurial primitives (the new tip returned by
  `pull`, whether a `commit` created a changeset, the tip left by `strip`);
  every executed primitive is recorded in an event trace (`Event`).
-/

namespace HgSubtree

/-- `default_bookmark_prefix = 'subtree@'` from the source, line 15. -/
def bmBase : String := "subtree@"

/-- `default_move_comment.format(name=name)`, source lines 16 and 144-146. -/
def moveMsg (nm : String) : String := "subtree: move " ++ nm

/-- `default_merge_comment.format(name=name)`, source lines 17 and 152-154. -/
def mergeMsg (nm : String) : String := "subtree: update " ++ nm

/-- `default_collapse_comment.format(name=name, rev=str(pulled_tip)[:12])`,
source lines 18 and 99-101.  Commit ids are modelled as naturals, so the
short hash is rendered with `toString`. -/
def collapseMsg (nm : String) (rev : Nat) : String :=
  "subtree: " ++ nm ++ "@" ++ toString rev

/-- One section of the `.hgsubtree` file, as produced by `_parse_hgsubtree`:
a string-keyed dictionary with the recognized keys modelled as optional
fields (`none` = key absent). -/
structure Subtree where
  source      : String := ""
  rev         : Option String := none
  destination : Option String := none
  collapse    : Option String := none
  keep        : Option String := none
deriving DecidableEq

/-- `collapse = 'collapse' in subtree and subtree['collapse']` (source line
66): the key must be present and its string value truthy (in Python the only
falsy string is the empty one). -/
def collapseFlag (st : Subtree) : Bool :=
  match st.collapse with
  | some v => v ≠ ""
  | none => false

/-- `'keep' not in subtree or not subtree['keep']` guards the removal loop
(source line 139); `keepFlag` is the negation of that guard: true when the
`keep` key is present with a truthy value. -/
def keepFlag (st : Subtree) : Bool :=
  match st.keep with
  | some v => v ≠ ""
  | none => false

/-- Executable model of Python's `str.split(sep)` for a one-character
separator: splits on every occurrence and keeps empty pieces. -/
def splitOnChar (c : Char) : List Char → List (List Char)
  | [] => [[]]
  | x :: xs =>
      let r := splitOnChar c xs
      if x = c then [] :: r
      else
        match r with
        | [] => [[x]]
        | y :: ys => (x :: y) :: ys

def pySplit (sep : Char) (s : String) : List String :=
  (splitOnChar sep s.data).map (fun l => String.mk l)

/-- Executable model of Python's `str.strip()`: drop whitespace from both
ends. -/
def trimChars (l : List Char) : List Char :=
  ((l.dropWhile Char.isWhitespace).reverse.dropWhile Char.isWhitespace).reverse

def pyStrip (s : String) : String := String.mk (trimChars s.data)

/-- Direct translation of `_destinations` (source lines 167-173):
split on newlines, `strip()` each line, skip empty lines, split each
remaining line on single spaces (Python's `split(' ')`, which keeps empty
pieces for runs of spaces) and `strip()` each token. -/
def _destinations (s : String) : List (List String) :=
  (pySplit '\n' s).filterMap fun x =>
    let x := pyStrip x
    if x.length = 0 then none
    else some ((pySplit ' ' x).map (fun y => pyStrip y))

/-- `_parse_hgsubtree` (source lines 157-165) feeds the file to
`ConfigParser.read`, which silently ignores a missing or unreadable file and
then yields no sections; the section dictionaries are returned in order.  We
model the filesystem as an optional already-sectioned file. -/
def _parse_hgsubtree (file : Option (List (String × Subtree))) :
    List (String × Subtree) :=
  file.getD []

/-! ### Glob matching

Mercurial treats bare command-line patterns as `glob:` patterns: `*` matches
any characters except the path separator, `**` also crosses `/`, `?` matches
one non-separator character.  A pattern without special characters matches
exactly itself. -/

/-- The suffixes of a string reachable by consuming zero or more
non-separator characters (the splits a single `*` may make). -/
def starSuffixes : List Char → List (List Char)
  | [] => [[]]
  | c :: cs => (c :: cs) :: (if c == '/' then [] else starSuffixes cs)

def globMatch : List Char → List Char → Bool
  | [], cs => cs.isEmpty
  | '*' :: '*' :: ps, cs => cs.tails.any (fun t => globMatch ps t)
  | '*' :: ps, cs => (starSuffixes cs).any (fun t => globMatch ps t)
  | '?' :: ps, cs =>
      match cs with
      | [] => false
      | c :: cs' => !(c == '/') && globMatch ps cs'
  | p :: ps, cs =>
      match cs with
      | [] => false
      | c :: cs' => (p == c) && globMatch ps cs'

def globMatchStr (pat p : String) : Bool := globMatch pat.data p.data

/-- The final path component, as used by `hg rename`/`hg copy` when moving
several sources into a directory. -/
def basename (p : String) : String := ((pySplit '/' p).getLast?).getD p

/-! ### The file-placement step (source lines 126-142)

The working copy is modelled as the list of currently tracked files, each
tagged with whether it is still `clean` (unchanged since the checkout).
`hg rename`/`hg copy` record their targets as added (not clean); a rename
drops its source, a copy leaves the source file untouched (and hence clean).
The executed operations are logged as `PlaceOp`s. -/

structure WFile where
  path  : String
  clean : Bool
deriving DecidableEq

abbrev Working := List WFile

inductive PlaceOp where
  | mkdir (path : String)
  | mv (src dst : String)
  | cp (src dst : String)
  | rm (path : String)
deriving DecidableEq

def hasPath (w : Working) (p : String) : Bool := w.any (fun f => f.path == p)

/-- One file relocation performed by `commands.rename(..., force=False)`
(source line 134): with `force=False` Mercurial refuses to overwrite an
existing destination file and skips that source. -/
def mvOne (w : Working) (src dst : String) : Working × List PlaceOp :=
  if hasPath w dst then (w, [])
  else (w.filter (fun f => f.path != src) ++ [⟨dst, false⟩], [PlaceOp.mv src dst])

/-- One file duplication performed by `commands.copy(..., force=False)`
(source line 136); the source file itself is left untouched. -/
def cpOne (w : Working) (src dst : String) : Working × List PlaceOp :=
  if hasPath w dst then (w, [])
  else (w ++ [⟨dst, false⟩], [PlaceOp.cp src dst])

/-- The tracked files matching any of the given command-line patterns;
Mercurial computes the matched set once, before acting on it. -/
def matchingSources (w : Working) (pats : List String) : List String :=
  (w.map (fun f => f.path)).filter (fun p => pats.any (fun pat => globMatchStr pat p))

def mvFold (target : String) : List String → Working → Working × List PlaceOp
  | [], w => (w, [])
  | s :: ss, w =>
      let r1 := mvOne w s (target ++ "/" ++ basename s)
      let r2 := mvFold target ss r1.1
      (r2.1, r1.2 ++ r2.2)

def cpFold (target : String) : List String → Working → Working × List PlaceOp
  | [], w => (w, [])
  | s :: ss, w =>
      let r1 := cpOne w s (target ++ "/" ++ basename s)
      let r2 := cpFold target ss r1.1
      (r2.1, r1.2 ++ r2.2)

def execMv (w : Working) (pats : List String) (target : String) :
    Working × List PlaceOp :=
  mvFold target (matchingSources w pats) w

def execCp (w : Working) (pats : List String) (target : String) :
    Working × List PlaceOp :=
  cpFold target (matchingSources w pats) w

/-- One iteration of the destination loop (source lines 129-136).  `mkdir`
only touches the filesystem, `mv`/`cp` call the rename/copy primitives with
`dest[1:]` (all but the last argument are patterns, the last is the target
directory).  A line whose operation is not `mkdir`/`mv`/`cp` falls through
all branches and is silently ignored — the loop has no `else`.  (A
malformed `mkdir` with no argument or a `mv`/`cp` with fewer than two
arguments would raise inside Python/Mercurial; those lines are modelled as
inert since no behaviour of interest depends on them.) -/
def execOne (w : Working) (dest : List String) : Working × List PlaceOp :=
  match dest with
  | [] => (w, [])
  | op :: args =>
      if op = "mkdir" then
        match args with
        | path :: _ => (w, [PlaceOp.mkdir path])
        | [] => (w, [])
      else if op = "mv" then
        if 2 ≤ args.length then
          execMv w args.dropLast ((args.getLast?).getD "")
        else (w, [])
      else if op = "cp" then
        if 2 ≤ args.length then
          execCp w args.dropLast ((args.getLast?).getD "")
        else (w, [])
      else (w, [])

def execDests : List (List String) → Working → Working × List PlaceOp
  | [], w => (w, [])
  | d :: ds, w =>
      let r1 := execOne w d
      let r2 := execDests ds r1.1
      (r2.1, r1.2 ++ r2.2)

def cleanPaths (w : Working) : List String :=
  (w.filter (fun f => f.clean)).map (fun f => f.path)

structure PlaceResult where
  w   : Working
  log : List PlaceOp
deriving DecidableEq

/-- The whole placement step for one spec (source lines 126-142): run the
destination lines in their textual order, then — unless `keep` — remove
every file that is still clean (`repo.status(clean=True)` followed by
`commands.remove`, lines 139-142). -/
def placement (ds : List (List String)) (manifest : List String) (keep : Bool) :
    PlaceResult :=
  let w0 : Working := manifest.map (fun p => ⟨p, true⟩)
  let r1 := execDests ds w0
  if keep then ⟨r1.1, r1.2⟩
  else ⟨r1.1.filter (fun f => !f.clean), r1.2 ++ (cleanPaths r1.1).map PlaceOp.rm⟩

/-- Rank of an operation in the grouped order claimed by the spec
(`mkdir`s, then copies, then moves, then removals). -/
def opRank : PlaceOp → Nat
  | .mkdir _ => 0
  | .cp _ _ => 1
  | .mv _ _ => 2
  | .rm _ => 3

/-- A log is in grouped order exactly when the ranks of consecutive
operations never decrease. -/
def groupedOrder : List PlaceOp → Bool
  | [] => true
  | [_] => true
  | a :: b :: rest => Nat.ble (opRank a) (opRank b) && groupedOrder (b :: rest)

def isRm : PlaceOp → Bool
  | .rm _ => true
  | _ => false

/-! ### The orchestrator (`subpull`, source lines 28-155)

The repository is modelled by the data `subpull` actually consults: the
current tip, the working-directory parent (`repo[None]`), the bookmark
table and a fresh-commit-id counter.  Commit ids are naturals handed out in
creation order, with `0` reserved for Mercurial's `null` revision; `pull`
adopting new changesets therefore bumps the counter past the pulled tip.
The ancestry test used by the bookmark-deletion loop
(`pulled_tip.ancestor(ctx) == ctx`, source line 110) is an external
Mercurial primitive and is supplied as a boolean relation `anc`; in any
well-formed history an ancestor was created no later than its descendant,
i.e. `anc a b = true → a ≤ b`. -/

/-- The command-line options of `subpull` (source lines 23-26); in Python
the string options default to `''`, which is falsy. -/
structure Opts where
  edit     : Bool := false
  source   : String := ""
  rev      : String := ""
  no_strip : Bool := false
deriving DecidableEq

/-- The tuple returned by `repo.status()` (source line 38). -/
structure Status where
  modified : List String := []
  added    : List String := []
  removed  : List String := []
  deleted  : List String := []
  unknown  : List String := []
  ignored  : List String := []
  clean    : List String := []
deriving DecidableEq

/-- The precondition test of source line 39:
`if modified or added or removed or deleted`. -/
def dirtyStatus (st : Status) : Bool :=
  !st.modified.isEmpty || !st.added.isEmpty || !st.removed.isEmpty ||
    !st.deleted.isEmpty

/-- The `error.Abort` sites of `subpull`. -/
inductive SubErr where
  /-- "Uncommitted changes in the working copy..." (line 40). -/
  | uncommittedChanges
  /-- "Cannot find %s in %s." (line 50). -/
  | notFound (name : String)
  /-- "Cannot use --source without specifying a repository" (line 54). -/
  | sourceWithoutRepo
  /-- "No destination found for %s" (line 64). -/
  | noDestination (name : String)
deriving DecidableEq

/-- Which of the three `commands.commit` call sites produced a commit
event (they differ only in their message template). -/
inductive CommitKind where
  | collapse
  | move
  | merge
deriving DecidableEq

/-- The trace of external Mercurial primitives invoked by `subpull`. -/
inductive Event where
  | pull (source : String) (revs : List String)
  | update (rev : Nat) (clean : Bool)
  | revertAll
  | commit (kind : CommitKind) (msg : String) (created : Option Nat)
  | bookmarkSet (name : String) (target : Nat)
  | bookmarkDel (name : String)
  | strip (pulledTip : Nat)
  | mkdir (path : String)
  | rename (args : List String)
  | copy (args : List String)
  | removeClean
  | merge (rev : Nat)
  | noChanges
deriving DecidableEq

/-- Abstract repository state threaded through the interpreter. -/
structure Repo where
  tip       : Nat
  wdParent  : Nat
  bookmarks : List (String × Nat)
  nextId    : Nat
deriving DecidableEq

/-- Outcomes of the external VCS primitives for one spec iteration:
the tip after the `pull`, whether each `commit` call found nothing to
commit, and the tip left behind by `strip`. -/
structure VcsOracle where
  pullTip      : Nat
  collapseNoop : Bool := false
  placeNoop    : Bool := false
  mergeNoop    : Bool := false
  stripTip     : Nat := 0
deriving DecidableEq

def lookupBm (k : String) : List (String × Nat) → Option Nat
  | [] => none
  | (k', v) :: rest => if k' = k then some v else lookupBm k rest

/-- Number of bookmark-table entries for a given name. -/
def countBm (k : String) (l : List (String × Nat)) : Nat :=
  (l.filter (fun kv => kv.1 == k)).length

/-- Create-or-update a bookmark.  In the source this is the combination of
activating the bookmark via `commands.update` (line 85), the active
bookmark following the new commit, and `commands.bookmark(...,
inactive=True)` (line 102), whose net effect is that the bookmark ends at
the current working-directory parent. -/
def setBm (k : String) (v : Nat) : List (String × Nat) → List (String × Nat)
  | [] => [(k, v)]
  | (k', v') :: rest =>
      if k' = k then (k, v) :: rest else (k', v') :: setBm k v rest

/-- One `commands.commit` call: either nothing changed (Python return value
`1`, no new changeset, working directory parent unchanged) or a fresh
changeset is created and becomes both tip and working-directory parent. -/
def commitStep (kind : CommitKind) (msg : String) (noop : Bool) (repo : Repo)
    (evs : List Event) : Repo × List Event :=
  if noop then (repo, evs ++ [Event.commit kind msg none])
  else
    ({ repo with
        tip := repo.nextId,
        wdParent := repo.nextId,
        nextId := repo.nextId + 1 },
     evs ++ [Event.commit kind msg (some repo.nextId)])

/-- The events of the destination loop (source lines 129-136) at the
granularity the orchestrator sees: one primitive invocation per recognized
line, in textual order; unrecognized operations fall through silently. -/
def destEvents (ds : List (List String)) : List Event :=
  ds.flatMap fun d =>
    match d with
    | [] => []
    | op :: args =>
        if op = "mkdir" then
          match args with
          | path :: _ => [Event.mkdir path]
          | [] => []
        else if op = "mv" then [Event.rename args]
        else if op = "cp" then [Event.copy args]
        else []

/-- The shared tail of a spec iteration (source lines 126-155): process the
destination lines, remove still-clean files unless `keep`, commit the
placement, update back to `origin`, merge the placement commit in and
commit the merge; the new merge commit becomes the next `origin`. -/
def syncTail (orc : VcsOracle) (nm : String) (st : Subtree) (dtext : String)
    (origin : Nat) (repo : Repo) (evs : List Event) :
    Except SubErr (Repo × Nat) × List Event :=
  let ds := _destinations dtext
  let evs := evs ++ destEvents ds
  let evs := if keepFlag st then evs else evs ++ [Event.removeClean]
  let r1 := commitStep .move (moveMsg nm) orc.placeNoop repo evs
  let mergeCommit := r1.1.wdParent
  let repo2 := { r1.1 with wdParent := origin }
  let evs := r1.2 ++ [Event.update origin false, Event.merge mergeCommit]
  let r2 := commitStep .merge (mergeMsg nm) orc.mergeNoop repo2 evs
  (.ok (r2.1, r2.1.wdParent), r2.2)

/-- One iteration of the `for name in names` loop (source lines 61-155). -/
def syncOne (anc : Nat → Nat → Bool) (opts : Opts) (orc : VcsOracle)
    (nm : String) (st : Subtree) (origin : Nat) (repo : Repo) :
    Except SubErr (Repo × Nat) × List Event :=
  match st.destination with
  | none => (.error (.noDestination nm), [])
  | some dtext =>
    let tip0 := repo.tip
    let src := if opts.source ≠ "" then opts.source else st.source
    let revs :=
      if opts.rev ≠ "" then [opts.rev]
      else match st.rev with
           | some rv => [rv]
           | none => []
    -- pull (line 75): new changesets may be adopted, so the pulled tip has
    -- a creation index at least as large as any existing commit.
    let repo := { repo with
                    tip := orc.pullTip,
                    nextId := max repo.nextId (orc.pullTip + 1) }
    let evs := [Event.pull src revs]
    if tip0 = repo.tip then
      -- line 77-79: "no changes: nothing for subtree to do"
      (.ok (repo, origin), evs ++ [Event.noChanges])
    else if collapseFlag st then
      let bm := bmBase ++ nm
      -- lines 84-87: check out the marker if present, else the null rev
      let upd :=
        match lookupBm bm repo.bookmarks with
        | some m => ({ repo with wdParent := m },
                     evs ++ [Event.update m true])
        | none => ({ repo with wdParent := 0 },
                   evs ++ [Event.update 0 true])
      let repo := upd.1
      let pulledTip := repo.tip
      let evs := upd.2 ++ [Event.revertAll]
      -- lines 92-98 remove `.hgsubstate`/`.hgsub` if present on disk; we
      -- model a host repository without subrepo metadata files.
      let cm := commitStep .collapse (collapseMsg nm pulledTip)
        orc.collapseNoop repo evs
      let repo := cm.1
      let repo := { repo with bookmarks := setBm bm repo.wdParent repo.bookmarks }
      let evs := cm.2 ++ [Event.bookmarkSet bm repo.wdParent]
      let strp :=
        if opts.no_strip then (repo, evs)
        else
          -- lines 104-116: delete bookmarks sitting on ancestors of the
          -- pulled tip, then strip `ancestors(pulled_tip)`.
          let doomed := (repo.bookmarks.filter
            (fun kv => anc kv.2 pulledTip)).map Prod.fst
          let repo := { repo with
            bookmarks := repo.bookmarks.filter (fun kv => !anc kv.2 pulledTip) }
          let evs := evs ++ doomed.map Event.bookmarkDel
          ({ repo with tip := orc.stripTip }, evs ++ [Event.strip pulledTip])
      let repo := strp.1
      let evs := strp.2
      if orc.collapseNoop then
        -- lines 118-121: nothing changed, go back to origin and continue
        (.ok ({ repo with wdParent := origin }, origin),
         evs ++ [Event.noChanges, Event.update origin false])
      else
        syncTail orc nm st dtext origin repo evs
    else
      -- line 123: update -C tip
      syncTail orc nm st dtext origin
        { repo with wdParent := repo.tip }
        (evs ++ [Event.update orc.pullTip true])

/-- The loop over the selected specs, threading `origin` (source lines
61-155): spec `k` of the run consumes `oracle (i + k)`. -/
def runSpecs (anc : Nat → Nat → Bool) (opts : Opts) (oracle : Nat → VcsOracle)
    (i : Nat) (specs : List (String × Subtree)) (origin : Nat) (repo : Repo) :
    Except SubErr (Repo × Nat) × List Event :=
  match specs with
  | [] => (.ok (repo, origin), [])
  | (nm, st) :: rest =>
      match syncOne anc opts (oracle i) nm st origin repo with
      | (.error e, tr) => (.error e, tr)
      | (.ok (repo', origin'), tr) =>
          let r := runSpecs anc opts oracle (i + 1) rest origin' repo'
          (r.1, tr ++ r.2)

/-- Dictionary lookup in the parsed `.hgsubtree` sections. -/
def lookupSpec (k : String) : List (String × Subtree) → Option Subtree
  | [] => none
  | (k', v) :: rest => if k' = k then some v else lookupSpec k rest

/-- Spec selection (source lines 48-55): a given name must exist in the
parsed file and selects exactly that spec; with no name, a `--source`
override aborts, otherwise all specs are processed in file order. -/
def selectSpecs (subtrees : List (String × Subtree)) (nm : String)
    (sourceOpt : String) : Except SubErr (List (String × Subtree)) :=
  if nm ≠ "" then
    match lookupSpec nm subtrees with
    | none => .error (.notFound nm)
    | some st => .ok [(nm, st)]
  else if sourceOpt ≠ "" then .error .sourceWithoutRepo
  else .ok subtrees

/-- The whole `subpull` command (source lines 28-155): abort on a dirty
working copy, parse `.hgsubtree`, select the specs, then run them starting
from `origin = str(repo[None])`. -/
def subpull (anc : Nat → Nat → Bool) (status : Status)
    (cfgFile : Option (List (String × Subtree))) (nm : String) (opts : Opts)
    (oracle : Nat → VcsOracle) (repo : Repo) :
    Except SubErr (Repo × Nat) × List Event :=
  if dirtyStatus status then (.error .uncommittedChanges, [])
  else
    let subtrees := _parse_hgsubtree cfgFile
    match selectSpecs subtrees nm opts.source with
    | .error e => (.error e, [])
    | .ok specs => runSpecs anc opts oracle 0 specs repo.wdParent repo

/-- Repeated invocations of a single collapsing spec: each invocation
starts from the current working-directory parent as its `origin`, exactly
as a fresh `subpull` would (source line 57). -/
def iterateSyncs (anc : Nat → Nat → Bool) (opts : Opts) (nm : String)
    (st : Subtree) : List VcsOracle → Repo → Repo × List Event
  | [], r => (r, [])
  | o :: os, r =>
      match syncOne anc opts o nm st r.wdParent r with
      | (.ok (r', _), tr) =>
          let rest := iterateSyncs anc opts nm st os r'
          (rest.1, tr ++ rest.2)
      | (.error _, tr) => (r, tr)

/-- The id of the changeset created by a collapse-site commit event. -/
def collapseCommitOf : Event → Option Nat
  | .commit .collapse _ (some c) => some c
  | _ => none

/-- The synthetic collapse commits recorded in a trace, in order. -/
def collapseCommits (tr : List Event) : List Nat :=
  tr.filterMap collapseCommitOf

/-- Per-iteration side conditions of a run of successful collapsing syncs:
each pull adopts genuinely new upstream changesets (so the pulled tip has a
creation index at least the current fresh-id counter) and every commit of
the iteration creates a changeset. -/
def freshRun (anc : Nat → Nat → Bool) (opts : Opts) (nm : String)
    (st : Subtree) : List VcsOracle → Repo → Bool
  | [], _ => true
  | o :: os, r =>
      Nat.ble r.nextId o.pullTip && !o.collapseNoop && !o.placeNoop &&
        !o.mergeNoop &&
        (match syncOne anc opts o nm st r.wdParent r with
         | (.ok (r', _), _) => freshRun anc opts nm st os r'
         | (.error _, _) => freshRun anc opts nm st os r)

def isBookmarkEv : Event → Bool
  | .bookmarkSet _ _ => true
  | .bookmarkDel _ => true
  | _ => false

def createsCommit : Event → Bool
  | .commit _ _ (some _) => true
  | _ => false

def isPlaceEv : Event → Bool
  | .mkdir _ => true
  | .rename _ => true
  | .copy _ => true
  | .removeClean => true
  | _ => false

def isMergeEv : Event → Bool
  | .merge _ => true
  | _ => false

def isPullEv : Event → Bool
  | .pull _ _ => true
  | _ => false

/-! ## Placement lemmas -/

lemma mvOne_no_rm (w : Working) (s d : String) :
    ∀ e ∈ (mvOne w s d).2, isRm e = false := by
  unfold mvOne; split <;> simp [isRm]

lemma cpOne_no_rm (w : Working) (s d : String) :
    ∀ e ∈ (cpOne w s d).2, isRm e = false := by
  unfold cpOne; split <;> simp [isRm]

lemma mvFold_no_rm (t : String) (ss : List String) (w : Working) :
    ∀ e ∈ (mvFold t ss w).2, isRm e = false := by
  induction ss generalizing w with
  | nil => simp [mvFold]
  | cons s ss ih =>
      intro e he
      simp only [mvFold, List.mem_append] at he
      rcases he with h | h
      · exact mvOne_no_rm w s _ e h
      · exact ih _ e h

lemma cpFold_no_rm (t : String) (ss : List String) (w : Working) :
    ∀ e ∈ (cpFold t ss w).2, isRm e = false := by
  induction ss generalizing w with
  | nil => simp [cpFold]
  | cons s ss ih =>
      intro e he
      simp only [cpFold, List.mem_append] at he
      rcases he with h | h
      · exact cpOne_no_rm w s _ e h
      · exact ih _ e h

lemma execOne_no_rm (w : Working) (d : List String) :
    ∀ e ∈ (execOne w d).2, isRm e = false := by
  cases d with
  | nil => simp [execOne]
  | cons op args =>
      by_cases h1 : op = "mkdir"
      · cases args with
        | nil => simp [execOne, h1]
        | cons a rest => simp [execOne, h1, isRm]
      · by_cases h2 : op = "mv"
        · by_cases h3 : 2 ≤ args.length
          · simpa [execOne, h1, h2, h3, execMv] using
              mvFold_no_rm ((args.getLast?).getD "") (matchingSources w args.dropLast) w
          · simp [execOne, h1, h2, h3]
        · by_cases h4 : op = "cp"
          · by_cases h3 : 2 ≤ args.length
            · simpa [execOne, h1, h2, h4, h3, execCp] using
                cpFold_no_rm ((args.getLast?).getD "") (matchingSources w args.dropLast) w
            · simp [execOne, h1, h2, h4, h3]
          · simp [execOne, h1, h2, h4]

lemma execDests_no_rm (ds : List (List String)) (w : Working) :
    ∀ e ∈ (execDests ds w).2, isRm e = false := by
  induction ds generalizing w with
  | nil => simp [execDests]
  | cons d ds ih =>
      intro e he
      simp only [execDests, List.mem_append] at he
      rcases he with h | h
      · exact execOne_no_rm w d e h
      · exact ih _ e h

lemma mvOne_clean_mem (p s d : String) (w : Working)
    (h : WFile.mk p true ∈ (mvOne w s d).1) :
    WFile.mk p true ∈ w ∧ ∀ d', PlaceOp.mv p d' ∉ (mvOne w s d).2 := by
  by_cases hc : hasPath w d = true
  · simp only [mvOne, hc, if_true] at h ⊢
    exact ⟨h, by simp⟩
  · simp only [mvOne, hc, if_false, Bool.false_eq_true] at h ⊢
    simp only [List.mem_append, List.mem_filter, List.mem_singleton] at h
    rcases h with ⟨hw, hne⟩ | hbad
    · have hps : p ≠ s := by simpa using hne
      exact ⟨hw, by simp [hps]⟩
    · simp at hbad

lemma cpOne_clean_mem (p s d : String) (w : Working)
    (h : WFile.mk p true ∈ (cpOne w s d).1) : WFile.mk p true ∈ w := by
  by_cases hc : hasPath w d = true
  · simpa [cpOne, hc] using h
  · simp only [cpOne, hc, if_false, Bool.false_eq_true, List.mem_append,
      List.mem_singleton] at h
    rcases h with h | hbad
    · exact h
    · simp at hbad

lemma cpOne_no_mv (p s d : String) (w : Working) :
    ∀ d', PlaceOp.mv p d' ∉ (cpOne w s d).2 := by
  by_cases hc : hasPath w d = true <;> simp [cpOne, hc]

lemma mvFold_clean_mem (p t : String) (ss : List String) (w : Working)
    (h : WFile.mk p true ∈ (mvFold t ss w).1) :
    WFile.mk p true ∈ w ∧ ∀ d', PlaceOp.mv p d' ∉ (mvFold t ss w).2 := by
  induction ss generalizing w with
  | nil => simpa [mvFold] using h
  | cons s ss ih =>
      simp only [mvFold] at h ⊢
      obtain ⟨h1, h2⟩ := ih _ h
      obtain ⟨h3, h4⟩ := mvOne_clean_mem p s (t ++ "/" ++ basename s) w h1
      refine ⟨h3, ?_⟩
      intro d' hd
      simp only [List.mem_append] at hd
      rcases hd with h5 | h5
      · exact h4 d' h5
      · exact h2 d' h5

lemma cpFold_clean_mem (p t : String) (ss : List String) (w : Working)
    (h : WFile.mk p true ∈ (cpFold t ss w).1) : WFile.mk p true ∈ w := by
  induction ss generalizing w with
  | nil => simpa [cpFold] using h
  | cons s ss ih =>
      simp only [cpFold] at h
      exact cpOne_clean_mem p s _ w (ih _ h)

lemma cpFold_no_mv (p t : String) (ss : List String) (w : Working) :
    ∀ d', PlaceOp.mv p d' ∉ (cpFold t ss w).2 := by
  induction ss generalizing w with
  | nil => simp [cpFold]
  | cons s ss ih =>
      intro d' hd
      simp only [cpFold, List.mem_append] at hd
      rcases hd with h | h
      · exact cpOne_no_mv p s _ w d' h
      · exact ih _ d' h

lemma execOne_clean_mem (p : String) (w : Working) (d : List String)
    (h : WFile.mk p true ∈ (execOne w d).1) :
    WFile.mk p true ∈ w ∧ ∀ d', PlaceOp.mv p d' ∉ (execOne w d).2 := by
  cases d with
  | nil => exact ⟨by simpa [execOne] using h, by simp [execOne]⟩
  | cons op args =>
      by_cases h1 : op = "mkdir"
      · cases args with
        | nil =>
            refine ⟨by simpa [execOne, h1] using h, ?_⟩
            simp [execOne, h1]
        | cons a rest =>
            refine ⟨by simpa [execOne, h1] using h, ?_⟩
            simp [execOne, h1]
      · by_cases h2 : op = "mv"
        · by_cases h3 : 2 ≤ args.length
          · simp only [execOne, h1, h2, h3, if_true, if_false, execMv] at h ⊢
            simpa [h1] using mvFold_clean_mem p _ _ w (by simpa [h1] using h)
          · refine ⟨by simpa [execOne, h1, h2, h3] using h, ?_⟩
            simp [execOne, h1, h2, h3]
        · by_cases h4 : op = "cp"
          · by_cases h3 : 2 ≤ args.length
            · simp only [execOne, h1, h2, h4, h3, if_true, if_false, execCp] at h ⊢
              constructor
              · exact cpFold_clean_mem p _ _ w (by simpa [h1, h2] using h)
              · intro d' hd
                exact cpFold_no_mv p _ _ w d' (by simpa [h1, h2] using hd)
            · refine ⟨by simpa [execOne, h1, h2, h4, h3] using h, ?_⟩
              simp [execOne, h1, h2, h4, h3]
          · refine ⟨by simpa [execOne, h1, h2, h4] using h, ?_⟩
            simp [execOne, h1, h2, h4]

lemma execDests_clean_mem (p : String) (ds : List (List String)) (w : Working)
    (h : WFile.mk p true ∈ (execDests ds w).1) :
    WFile.mk p true ∈ w ∧ ∀ d', PlaceOp.mv p d' ∉ (execDests ds w).2 := by
  induction ds generalizing w with
  | nil => simpa [execDests] using h
  | cons d ds ih =>
      simp only [execDests] at h ⊢
      obtain ⟨h1, h2⟩ := ih _ h
      obtain ⟨h3, h4⟩ := execOne_clean_mem p w d h1
      refine ⟨h3, ?_⟩
      intro d' hd
      simp only [List.mem_append] at hd
      rcases hd with h5 | h5
      · exact h4 d' h5
      · exact h2 d' h5

lemma mvOne_clean_cases (p s d : String) (w : Working)
    (h : WFile.mk p true ∈ w) :
    WFile.mk p true ∈ (mvOne w s d).1 ∨
      ∃ d', PlaceOp.mv p d' ∈ (mvOne w s d).2 := by
  by_cases hc : hasPath w d = true
  · left; simpa [mvOne, hc] using h
  · by_cases hp : p = s
    · right
      subst hp
      exact ⟨d, by simp [mvOne, hc]⟩
    · left
      simp only [mvOne, hc, if_false, Bool.false_eq_true, List.mem_append]
      exact Or.inl (List.mem_filter.mpr ⟨h, by simpa using hp⟩)

lemma cpOne_mem_mono (p s d : String) (w : Working)
    (h : WFile.mk p true ∈ w) : WFile.mk p true ∈ (cpOne w s d).1 := by
  by_cases hc : hasPath w d = true <;> simp [cpOne, hc, h]

lemma mvFold_clean_cases (p t : String) (ss : List String) (w : Working)
    (h : WFile.mk p true ∈ w) :
    WFile.mk p true ∈ (mvFold t ss w).1 ∨
      ∃ d', PlaceOp.mv p d' ∈ (mvFold t ss w).2 := by
  induction ss generalizing w with
  | nil => left; simpa [mvFold] using h
  | cons s ss ih =>
      rcases mvOne_clean_cases p s (t ++ "/" ++ basename s) w h with h1 | ⟨d', h1⟩
      · rcases ih _ h1 with h2 | ⟨d', h2⟩
        · left; simpa [mvFold] using h2
        · right
          refine ⟨d', ?_⟩
          simp only [mvFold, List.mem_append]
          exact Or.inr h2
      · right
        refine ⟨d', ?_⟩
        simp only [mvFold, List.mem_append]
        exact Or.inl h1

lemma cpFold_mem_mono (p t : String) (ss : List String) (w : Working)
    (h : WFile.mk p true ∈ w) : WFile.mk p true ∈ (cpFold t ss w).1 := by
  induction ss generalizing w with
  | nil => simpa [cpFold] using h
  | cons s ss ih =>
      simp only [cpFold]
      exact ih _ (cpOne_mem_mono p s _ w h)

lemma execOne_clean_cases (p : String) (w : Working) (d : List String)
    (h : WFile.mk p true ∈ w) :
    WFile.mk p true ∈ (execOne w d).1 ∨
      ∃ d', PlaceOp.mv p d' ∈ (execOne w d).2 := by
  cases d with
  | nil => left; simpa [execOne] using h
  | cons op args =>
      by_cases h1 : op = "mkdir"
      · cases args with
        | nil => left; simpa [execOne, h1] using h
        | cons a rest => left; simpa [execOne, h1] using h
      · by_cases h2 : op = "mv"
        · by_cases h3 : 2 ≤ args.length
          · simp only [execOne, h1, h2, h3, if_true, if_false, execMv]
            simpa [h1] using mvFold_clean_cases p _ _ w h
          · left; simpa [execOne, h1, h2, h3] using h
        · by_cases h4 : op = "cp"
          · by_cases h3 : 2 ≤ args.length
            · simp only [execOne, h1, h2, h4, h3, if_true, if_false, execCp]
              left
              simpa [h1, h2] using cpFold_mem_mono p _ _ w h
            · left; simpa [execOne, h1, h2, h4, h3] using h
          · left; simpa [execOne, h1, h2, h4] using h

lemma execDests_clean_cases (p : String) (ds : List (List String)) (w : Working)
    (h : WFile.mk p true ∈ w) :
    WFile.mk p true ∈ (execDests ds w).1 ∨
      ∃ d', PlaceOp.mv p d' ∈ (execDests ds w).2 := by
  induction ds generalizing w with
  | nil => left; simpa [execDests] using h
  | cons d ds ih =>
      rcases execOne_clean_cases p w d h with h1 | ⟨d', h1⟩
      · rcases ih _ h1 with h2 | ⟨d', h2⟩
        · left; simpa [execDests] using h2
        · right
          refine ⟨d', ?_⟩
          simp only [execDests, List.mem_append]
          exact Or.inr h2
      · right
        refine ⟨d', ?_⟩
        simp only [execDests, List.mem_append]
        exact Or.inl h1

lemma mem_cleanPaths (p : String) (w : Working) :
    p ∈ cleanPaths w ↔ WFile.mk p true ∈ w := by
  constructor
  · intro h
    simp only [cleanPaths, List.mem_map, List.mem_filter] at h
    obtain ⟨f, ⟨hf, hcl⟩, hp⟩ := h
    cases f
    simp only at hp hcl
    subst hp
    simpa [hcl] using hf
  · intro h
    simp only [cleanPaths, List.mem_map, List.mem_filter]
    exact ⟨WFile.mk p true, ⟨h, rfl⟩, rfl⟩

/-! ## Claim C3 -/

/-- C3 (counterexample): the claim asserts that a path matched by at least
one move or copy rule is never in the removal set.  On the code, a file
matched only by a `cp` rule keeps its source untouched, so the source is
still clean after the destination loop and the clean-file sweep (source
lines 139-142) removes it: with manifest `["a.md"]` and the single rule
`cp a.md docs`, the path `a.md` is both a copy source and removed. -/
theorem copy_source_removed_cex :
    PlaceOp.cp "a.md" "docs/a.md" ∈
        (placement (_destinations "cp a.md docs") ["a.md"] false).log ∧
    PlaceOp.rm "a.md" ∈
        (placement (_destinations "cp a.md docs") ["a.md"] false).log := by
  constructor <;> decide

/-- C3 (amended): after the placement step every manifest path is either
relocated by a move operation, or left clean — in which case, when `keep`
is set, it survives untouched and no removal at all is issued, and, when
`keep` is unset, it is removed; a path that was only a copy source stays
clean and falls into the removal sweep.  Moreover a path actually relocated
by a move operation is never removed. -/
theorem placement_trichotomy (ds : List (List String)) (manifest : List String)
    (keep : Bool) (p : String) (hp : p ∈ manifest) :
    ((∃ d, PlaceOp.mv p d ∈ (placement ds manifest keep).log) ∨
     (WFile.mk p true ∈ (placement ds manifest keep).w ∧ keep = true ∧
        ∀ q, PlaceOp.rm q ∉ (placement ds manifest keep).log) ∨
     (PlaceOp.rm p ∈ (placement ds manifest keep).log ∧ keep = false)) ∧
    (PlaceOp.rm p ∈ (placement ds manifest keep).log →
      ∀ d, PlaceOp.mv p d ∉ (placement ds manifest keep).log) := by
  have hw0 : WFile.mk p true ∈ manifest.map (fun q => WFile.mk q true) :=
    List.mem_map.mpr ⟨p, hp, rfl⟩
  cases keep with
  | true =>
      constructor
      · rcases execDests_clean_cases p ds _ hw0 with h | ⟨d, h⟩
        · refine Or.inr (Or.inl ⟨by simpa [placement] using h, rfl, ?_⟩)
          intro q hq
          have := execDests_no_rm ds (manifest.map (fun q => WFile.mk q true))
            (PlaceOp.rm q) (by simpa [placement] using hq)
          simp [isRm] at this
        · exact Or.inl ⟨d, by simpa [placement] using h⟩
      · intro hq
        have := execDests_no_rm ds (manifest.map (fun q => WFile.mk q true))
          (PlaceOp.rm p) (by simpa [placement] using hq)
        simp [isRm] at this
  | false =>
      have hlog : (placement ds manifest false).log =
          (execDests ds (manifest.map (fun q => WFile.mk q true))).2 ++
            (cleanPaths (execDests ds (manifest.map
              (fun q => WFile.mk q true))).1).map PlaceOp.rm := by
        simp [placement]
      constructor
      · rcases execDests_clean_cases p ds _ hw0 with h | ⟨d, h⟩
        · refine Or.inr (Or.inr ⟨?_, rfl⟩)
          have hc : p ∈ cleanPaths (execDests ds (manifest.map
              (fun q => WFile.mk q true))).1 := (mem_cleanPaths p _).mpr h
          rw [hlog, List.mem_append]
          exact Or.inr (List.mem_map.mpr ⟨p, hc, rfl⟩)
        · refine Or.inl ⟨d, ?_⟩
          rw [hlog, List.mem_append]
          exact Or.inl h
      · intro hq d hd
        rw [hlog, List.mem_append] at hq hd
        rcases hq with hq | hq
        · have := execDests_no_rm ds _ (PlaceOp.rm p) hq
          simp [isRm] at this
        · obtain ⟨q, hqc, hqe⟩ := List.mem_map.mp hq
          have hqp : q = p := by
            have := congrArg (fun o => match o with
              | PlaceOp.rm r => r
              | _ => "") hqe
            simpa using this
          subst hqp
          have hcl : WFile.mk q true ∈ (execDests ds (manifest.map
              (fun r => WFile.mk r true))).1 := (mem_cleanPaths q _).mp hqc
          obtain ⟨-, hnomv⟩ := execDests_clean_mem q ds _ hcl
          rcases hd with hd | hd
          · exact hnomv d hd
          · obtain ⟨r, -, hre⟩ := List.mem_map.mp hd
            simp at hre

/-- C3 (witness): the amended trichotomy applied to the concrete scenario of
the claim's sources — a file matching both a `cp` and a `mv` rule. -/
theorem placement_trichotomy_witness :
    "a.md" ∈ ["a.md"] ∧
    ((∃ d, PlaceOp.mv "a.md" d ∈
        (placement (_destinations "cp *.md docs\nmv *.md archive")
          ["a.md"] false).log) ∨
     (WFile.mk "a.md" true ∈
        (placement (_destinations "cp *.md docs\nmv *.md archive")
          ["a.md"] false).w ∧ false = true ∧
        ∀ q, PlaceOp.rm q ∉
          (placement (_destinations "cp *.md docs\nmv *.md archive")
            ["a.md"] false).log) ∨
     (PlaceOp.rm "a.md" ∈
        (placement (_destinations "cp *.md docs\nmv *.md archive")
          ["a.md"] false).log ∧ false = false)) :=
  ⟨by decide,
   (placement_trichotomy (_destinations "cp *.md docs\nmv *.md archive")
      ["a.md"] false "a.md" (by decide)).1⟩

/-! ## Claim C5 -/

/-- C5 (counterexample): the claim asserts the placement step executes all
`mkdir`s first, then copies, then moves, then removals, in that grouped
order.  The code (source lines 129-136) iterates the destination lines in
their textual order: for the rule text `mv a d` followed by `mkdir m`, the
move executes before the mkdir, so the executed log is not grouped. -/
theorem grouped_order_cex :
    groupedOrder (placement (_destinations "mv a d\nmkdir m") ["a"] false).log
      = false := by
  decide

/-- C5 (amended): the placement step executes the `mkdir`/`cp`/`mv`
operations in the textual order the rules appear in the destination block —
each line's operations run before the next line's — and the removals are
always last: the log is the textual-order execution log followed by a block
of removal operations only. -/
theorem placement_textual_order :
    (∀ (d : List String) (ds : List (List String)) (w : Working),
      execDests (d :: ds) w =
        ((execDests ds (execOne w d).1).1,
         (execOne w d).2 ++ (execDests ds (execOne w d).1).2)) ∧
    (∀ (ds : List (List String)) (manifest : List String) (keep : Bool),
      ∃ ops rms,
        (placement ds manifest keep).log = ops ++ rms ∧
        ops = (execDests ds (manifest.map (fun q => WFile.mk q true))).2 ∧
        (∀ e ∈ ops, isRm e = false) ∧
        (∀ e ∈ rms, isRm e = true)) := by
  constructor
  · intro d ds w
    rfl
  · intro ds manifest keep
    cases keep with
    | true =>
        refine ⟨_, [], by simp [placement], rfl, execDests_no_rm _ _, by simp⟩
    | false =>
        refine ⟨_, (cleanPaths (execDests ds (manifest.map
            (fun q => WFile.mk q true))).1).map PlaceOp.rm,
          by simp [placement], rfl, execDests_no_rm _ _, ?_⟩
        intro e he
        obtain ⟨q, -, rfl⟩ := List.mem_map.mp he
        rfl

/-- C5 (witness): the amended statement applied at a concrete rule list. -/
theorem placement_textual_order_witness :
    (execDests [["mv", "a", "d"], ["mkdir", "m"]] [WFile.mk "a" true] =
      ((execDests [["mkdir", "m"]]
          (execOne [WFile.mk "a" true] ["mv", "a", "d"]).1).1,
       (execOne [WFile.mk "a" true] ["mv", "a", "d"]).2 ++
         (execDests [["mkdir", "m"]]
           (execOne [WFile.mk "a" true] ["mv", "a", "d"]).1).2)) ∧
    (∃ ops rms,
      (placement [["mv", "a", "d"], ["mkdir", "m"]] ["a"] false).log =
        ops ++ rms ∧
      ops = (execDests [["mv", "a", "d"], ["mkdir", "m"]]
        (["a"].map (fun q => WFile.mk q true))).2 ∧
      (∀ e ∈ ops, isRm e = false) ∧
      (∀ e ∈ rms, isRm e = true)) :=
  ⟨placement_textual_order.1 ["mv", "a", "d"] [["mkdir", "m"]] [WFile.mk "a" true],
   placement_textual_order.2 [["mv", "a", "d"], ["mkdir", "m"]] ["a"] false⟩

/-! ## Claim C8 -/

/-- C8 (counterexample): the claim asserts that a destination line whose
operation is unrecognized fails with a `ConfigError` rather than being
silently skipped.  The destination loop (source lines 129-136) has no
`else` branch: the line `frob a b` is parsed fine by `_destinations` and
then executing it performs no operation and raises no error at all. -/
theorem unknown_op_silent_cex :
    _destinations "frob a b" = [["frob", "a", "b"]] ∧
    execDests (_destinations "frob a b") [WFile.mk "x" true] =
      ([WFile.mk "x" true], []) := by
  constructor <;> decide

/-- C8 (amended): blank (whitespace-only) lines of the destination block
are ignored and every produced rule is some non-blank line split on single
spaces with each token stripped; a rule whose operation is not one of
`mkdir`/`mv`/`cp` is silently skipped by the destination loop — no error is
raised and nothing is executed. -/
theorem dest_tokenize_unknown_skipped :
    (∀ s l, l ∈ _destinations s →
      ∃ line, line ∈ pySplit '\n' s ∧ (pyStrip line).length ≠ 0 ∧
        l = (pySplit ' ' (pyStrip line)).map (fun y => pyStrip y)) ∧
    (∀ (w : Working) (op : String) (args : List String),
      op ≠ "mkdir" → op ≠ "mv" → op ≠ "cp" →
      execOne w (op :: args) = (w, [])) := by
  constructor
  · intro s l hl
    simp only [_destinations, List.mem_filterMap] at hl
    obtain ⟨line, hline, hmap⟩ := hl
    by_cases hb : (pyStrip line).length = 0
    · simp [hb] at hmap
    · refine ⟨line, hline, hb, ?_⟩
      simp only [hb, if_false, Option.some_inj] at hmap
      exact hmap.symm
  · intro w op args h1 h2 h3
    simp [execOne, h1, h2, h3]

/-- C8 (witness): the amended statement applied to the concrete unknown
operation `frob`. -/
theorem dest_tokenize_unknown_skipped_witness :
    (∃ line, line ∈ pySplit '\n' "frob a b" ∧ (pyStrip line).length ≠ 0 ∧
      ["frob", "a", "b"] = (pySplit ' ' (pyStrip line)).map (fun y => pyStrip y)) ∧
    execOne [WFile.mk "x" true] ("frob" :: ["a", "b"]) =
      ([WFile.mk "x" true], []) :=
  ⟨dest_tokenize_unknown_skipped.1 "frob a b" ["frob", "a", "b"] (by decide),
   dest_tokenize_unknown_skipped.2 [WFile.mk "x" true] "frob" ["a", "b"]
     (by decide) (by decide) (by decide)⟩

/-! ## Orchestrator lemmas -/

lemma syncTail_fst_ok (orc : VcsOracle) (nm : String) (st : Subtree)
    (dtext : String) (origin : Nat) (repo : Repo) (evs : List Event) :
    ∀ e, (syncTail orc nm st dtext origin repo evs).1 ≠ .error e := by
  intro e
  unfold syncTail
  simp

lemma syncOne_not_uncommitted (anc : Nat → Nat → Bool) (opts : Opts)
    (orc : VcsOracle) (nm : String) (st : Subtree) (origin : Nat) (repo : Repo) :
    (syncOne anc opts orc nm st origin repo).1 ≠
      .error SubErr.uncommittedChanges := by
  unfold syncOne
  cases st.destination with
  | none => simp
  | some dtext =>
      simp only
      split
      · simp
      · split
        · repeat' split
          all_goals first
            | exact syncTail_fst_ok _ _ _ _ _ _ _ _
            | simp
        · exact syncTail_fst_ok _ _ _ _ _ _ _ _

lemma runSpecs_not_uncommitted (anc : Nat → Nat → Bool) (opts : Opts)
    (oracle : Nat → VcsOracle) (specs : List (String × Subtree)) :
    ∀ (i : Nat) (origin : Nat) (repo : Repo),
      (runSpecs anc opts oracle i specs origin repo).1 ≠
        .error SubErr.uncommittedChanges := by
  induction specs with
  | nil => intro i origin repo; simp [runSpecs]
  | cons p rest ih =>
      intro i origin repo
      obtain ⟨nm, st⟩ := p
      simp only [runSpecs]
      split
      · next e tr heq =>
          intro hcon
          simp only at hcon
          apply syncOne_not_uncommitted anc opts (oracle i) nm st origin repo
          rw [heq, hcon]
      · next repo' origin' tr heq =>
          simpa using ih (i + 1) origin' repo'

lemma selectSpecs_not_uncommitted (subtrees : List (String × Subtree))
    (nm : String) (sourceOpt : String) :
    ∀ e, selectSpecs subtrees nm sourceOpt = .error e →
      e ≠ SubErr.uncommittedChanges := by
  intro e he
  unfold selectSpecs at he
  split at he
  · split at he
    · simp only [Except.error.injEq] at he
      simp [← he]
    · simp at he
  · split at he
    · simp only [Except.error.injEq] at he
      simp [← he]
    · simp at he

/-! ## Claim C1 -/

/-- C1: if the working copy has any modified, added, removed or deleted
entry the whole run aborts with the precondition error before any VCS
mutation (empty trace, zero commits), regardless of the selected specs and
options; conversely a working copy that is merely unknown/ignored/clean
never triggers that abort. -/
theorem clean_precondition (anc : Nat → Nat → Bool) (status : Status)
    (cfgFile : Option (List (String × Subtree))) (nm : String) (opts : Opts)
    (oracle : Nat → VcsOracle) (repo : Repo) :
    (dirtyStatus status = true →
      subpull anc status cfgFile nm opts oracle repo =
        (.error .uncommittedChanges, [])) ∧
    (dirtyStatus status = false →
      (subpull anc status cfgFile nm opts oracle repo).1 ≠
        .error .uncommittedChanges) := by
  constructor
  · intro h
    simp [subpull, h]
  · intro h
    simp only [subpull, h, Bool.false_eq_true, if_false]
    split
    · next e heq =>
        intro hcon
        simp only at hcon
        exact selectSpecs_not_uncommitted _ _ _ e heq (Except.error.inj hcon)
    · next specs heq =>
        exact runSpecs_not_uncommitted anc opts oracle specs 0 repo.wdParent repo

/-- C1 (witness): a concrete dirty status (one added file) aborts with an
empty trace, and a concrete clean status does not produce the
precondition error. -/
theorem clean_precondition_witness :
    subpull (fun _ _ => false) ⟨[], ["f"], [], [], [], [], []⟩ none ""
        ⟨false, "", "", false⟩ (fun _ => ⟨0, false, false, false, 0⟩)
        ⟨0, 0, [], 1⟩ =
      (.error .uncommittedChanges, []) ∧
    (subpull (fun _ _ => false) ⟨[], [], [], [], [], [], []⟩ none ""
        ⟨false, "", "", false⟩ (fun _ => ⟨0, false, false, false, 0⟩)
        ⟨0, 0, [], 1⟩).1 ≠
      .error .uncommittedChanges :=
  ⟨(clean_precondition (fun _ _ => false) ⟨[], ["f"], [], [], [], [], []⟩ none ""
      ⟨false, "", "", false⟩ (fun _ => ⟨0, false, false, false, 0⟩)
      ⟨0, 0, [], 1⟩).1 (by decide),
   (clean_precondition (fun _ _ => false) ⟨[], [], [], [], [], [], []⟩ none ""
      ⟨false, "", "", false⟩ (fun _ => ⟨0, false, false, false, 0⟩)
      ⟨0, 0, [], 1⟩).2 (by decide)⟩

/-! ## Claim C2 -/

lemma syncOne_noop (anc : Nat → Nat → Bool) (opts : Opts) (orc : VcsOracle)
    (nm : String) (st : Subtree) (origin : Nat) (repo : Repo)
    (hd : st.destination ≠ none) (hwf : repo.tip < repo.nextId)
    (hpt : orc.pullTip = repo.tip) :
    (syncOne anc opts orc nm st origin repo).1 = .ok (repo, origin) ∧
    ∀ e ∈ (syncOne anc opts orc nm st origin repo).2,
      isPullEv e = true ∨ e = Event.noChanges := by
  obtain ⟨dtext, hdt⟩ := Option.ne_none_iff_exists'.mp hd
  obtain ⟨tip, wd, bms, nid⟩ := repo
  have hmax : max nid (tip + 1) = nid := Nat.max_eq_left hwf
  constructor
  · simp [syncOne, hdt, hpt, hmax]
  · intro e he
    simp only [syncOne, hdt, hpt, hmax, List.append_eq, List.cons_append,
      List.nil_append] at he
    cases he with
    | head => left; rfl
    | tail _ h2 =>
        cases h2 with
        | head => right; rfl
        | tail _ h3 => cases h3

/-- C2: if the pull for a spec leaves the repository tip unchanged, the
sync of that spec performs no further commits or mutations (its trace is
only the pull and the "no changes" report) and hands the unchanged
repository and origin to the next spec; consequently a whole run in which
every pull returns the pre-pull tip — i.e. a second sync with no upstream
changes — returns the repository head unchanged and performs zero
commits. -/
theorem noop_pull_no_mutation (anc : Nat → Nat → Bool) (opts : Opts)
    (oracle : Nat → VcsOracle) (i : Nat) (specs : List (String × Subtree))
    (origin : Nat) (repo : Repo)
    (hwf : repo.tip < repo.nextId)
    (hpull : ∀ j, (oracle j).pullTip = repo.tip)
    (hdest : ∀ p ∈ specs, p.2.destination ≠ none) :
    (runSpecs anc opts oracle i specs origin repo).1 = .ok (repo, origin) ∧
    ∀ e ∈ (runSpecs anc opts oracle i specs origin repo).2,
      isPullEv e = true ∨ e = Event.noChanges := by
  induction specs generalizing i with
  | nil => simp [runSpecs]
  | cons p rest ih =>
      obtain ⟨nm, st⟩ := p
      have hd : st.destination ≠ none := hdest (nm, st) (List.mem_cons_self _ _)
      obtain ⟨h1, h2⟩ :=
        syncOne_noop anc opts (oracle i) nm st origin repo hd hwf (hpull i)
      have hrest : ∀ q ∈ rest, q.2.destination ≠ none := fun q hq =>
        hdest q (List.mem_cons_of_mem _ hq)
      obtain ⟨h3, h4⟩ := ih (i + 1) hrest
      simp only [runSpecs]
      split
      · next e tr heq =>
          rw [heq] at h1
          simp at h1
      · next repo' origin' tr heq =>
          rw [heq] at h1 h2
          simp only at h1 h2
          injection h1 with h1
          injection h1 with hr ho
          subst hr
          subst ho
          refine ⟨h3, ?_⟩
          intro e he
          simp only [List.mem_append] at he
          rcases he with he | he
          · exact h2 e he
          · exact h4 e he

/-- C2 (witness): a run over one spec whose pull returns the pre-pull tip
leaves the repository and origin unchanged. -/
theorem noop_pull_no_mutation_witness :
    (0 : Nat) < 1 ∧
    (runSpecs (fun _ _ => false) ⟨false, "", "", false⟩
        (fun _ => ⟨0, false, false, false, 0⟩) 0
        [("a", ⟨"up", none, some "mv x y", none, none⟩)] 7 ⟨0, 0, [], 1⟩).1 =
      .ok (⟨0, 0, [], 1⟩, 7) :=
  ⟨by decide,
   (noop_pull_no_mutation (fun _ _ => false) ⟨false, "", "", false⟩
      (fun _ => ⟨0, false, false, false, 0⟩) 0
      [("a", ⟨"up", none, some "mv x y", none, none⟩)] 7 ⟨0, 0, [], 1⟩
      (by decide) (fun _ => rfl) (by decide)).1⟩

/-! ## Claim C9 -/

/-- C9 (counterexample): the claim asserts that when no name is given but
the configuration contains exactly one spec, a `--source` override is
legal.  The code (source lines 52-54) aborts on `--source` whenever no
name is given, regardless of how many specs the configuration holds: here
the configuration has exactly one spec and the run still aborts. -/
theorem single_spec_source_cex :
    subpull (fun _ _ => false) ⟨[], [], [], [], [], [], []⟩
        (some [("only", ⟨"up", none, some "mv a b", none, none⟩)]) ""
        ⟨false, "override", "", false⟩ (fun _ => ⟨0, false, false, false, 0⟩)
        ⟨0, 0, [], 1⟩ =
      (.error .sourceWithoutRepo, []) := by
  rfl

/-- C9 (amended): a `--source` override is accepted exactly when a subtree
name is explicitly given (which selects exactly one spec); with no name
the override aborts with the invalid-argument error before any VCS call —
even when the configuration contains exactly one spec. -/
theorem source_override_requires_name :
    (∀ (anc : Nat → Nat → Bool) (status : Status)
       (cfgFile : Option (List (String × Subtree))) (opts : Opts)
       (oracle : Nat → VcsOracle) (repo : Repo),
      dirtyStatus status = false → opts.source ≠ "" →
      subpull anc status cfgFile "" opts oracle repo =
        (.error .sourceWithoutRepo, [])) ∧
    (∀ (subtrees : List (String × Subtree)) (nm : String) (st : Subtree)
       (sourceOpt : String),
      nm ≠ "" → lookupSpec nm subtrees = some st →
      selectSpecs subtrees nm sourceOpt = .ok [(nm, st)]) := by
  constructor
  · intro anc status cfgFile opts oracle repo hclean hsrc
    simp [subpull, hclean, selectSpecs, hsrc]
  · intro subtrees nm st sourceOpt hnm hlk
    simp [selectSpecs, hnm, hlk]

/-- C9 (witness): the amended statement applied concretely: with no name a
source override aborts; with the name given the single spec is selected. -/
theorem source_override_requires_name_witness :
    subpull (fun _ _ => false) ⟨[], [], [], [], [], [], []⟩ none ""
        ⟨false, "s", "", false⟩ (fun _ => ⟨0, false, false, false, 0⟩)
        ⟨0, 0, [], 1⟩ =
      (.error .sourceWithoutRepo, []) ∧
    selectSpecs [("a", ⟨"u", none, none, none, none⟩)] "a" "s" =
      .ok [("a", ⟨"u", none, none, none, none⟩)] :=
  ⟨source_override_requires_name.1 (fun _ _ => false)
      ⟨[], [], [], [], [], [], []⟩ none ⟨false, "s", "", false⟩
      (fun _ => ⟨0, false, false, false, 0⟩) ⟨0, 0, [], 1⟩ rfl (by decide),
   source_override_requires_name.2 [("a", ⟨"u", none, none, none, none⟩)]
      "a" ⟨"u", none, none, none, none⟩ "s" (by decide) (by decide)⟩

/-! ## Claim C10 -/

/-- C10: when the configuration file is missing or unreadable, loading
yields an empty mapping; an invocation without a subtree name (and without
a source override) then iterates zero specs and succeeds with an empty
trace, while an invocation naming any subtree aborts with the not-found
error. -/
theorem missing_config_empty (anc : Nat → Nat → Bool) (status : Status)
    (opts : Opts) (oracle : Nat → VcsOracle) (repo : Repo) (nm : String) :
    dirtyStatus status = false → opts.source = "" →
    (_parse_hgsubtree none = [] ∧
     subpull anc status none "" opts oracle repo =
       (.ok (repo, repo.wdParent), []) ∧
     (nm ≠ "" →
      subpull anc status none nm opts oracle repo =
        (.error (.notFound nm), []))) := by
  intro hclean hsrc
  refine ⟨rfl, ?_, ?_⟩
  · simp [subpull, hclean, hsrc, selectSpecs, _parse_hgsubtree, runSpecs]
  · intro hnm
    simp [subpull, hclean, selectSpecs, hnm, _parse_hgsubtree, lookupSpec]

/-- C10 (witness): the missing-config behaviour at concrete inputs. -/
theorem missing_config_empty_witness :
    _parse_hgsubtree none = [] ∧
    subpull (fun _ _ => false) ⟨[], [], [], [], [], [], []⟩ none ""
        ⟨false, "", "", false⟩ (fun _ => ⟨0, false, false, false, 0⟩)
        ⟨0, 3, [], 1⟩ =
      (.ok (⟨0, 3, [], 1⟩, 3), []) ∧
    subpull (fun _ _ => false) ⟨[], [], [], [], [], [], []⟩ none "lib"
        ⟨false, "", "", false⟩ (fun _ => ⟨0, false, false, false, 0⟩)
        ⟨0, 3, [], 1⟩ =
      (.error (.notFound "lib"), []) := by
  have h := missing_config_empty (fun _ _ => false)
    ⟨[], [], [], [], [], [], []⟩ ⟨false, "", "", false⟩
    (fun _ => ⟨0, false, false, false, 0⟩) ⟨0, 3, [], 1⟩ "lib" rfl rfl
  exact ⟨h.1, h.2.1, h.2.2 (by decide)⟩

/-! ## Bookmark-table lemmas -/

lemma lookupBm_filter_setBm (k : String) (v : Nat) (l : List (String × Nat))
    (pred : String × Nat → Bool) (hp : pred (k, v) = true) :
    lookupBm k ((setBm k v l).filter pred) = some v := by
  induction l with
  | nil => simp [setBm, lookupBm, hp]
  | cons kv rest ih =>
      obtain ⟨k', v'⟩ := kv
      by_cases hk : k' = k
      · subst hk
        simp [setBm, List.filter_cons, hp, lookupBm]
      · by_cases hpkv : pred (k', v') = true
        · simp only [setBm, if_neg hk, List.filter_cons, hpkv, if_true]
          simpa [lookupBm, hk] using ih
        · simp only [setBm, if_neg hk, List.filter_cons, hpkv,
            Bool.false_eq_true, if_false]
          exact ih

lemma lookupBm_setBm_self (k : String) (v : Nat) (l : List (String × Nat)) :
    lookupBm k (setBm k v l) = some v := by
  induction l with
  | nil => simp [setBm, lookupBm]
  | cons kv rest ih =>
      obtain ⟨k', v'⟩ := kv
      by_cases hk : k' = k
      · subst hk; simp [setBm, lookupBm]
      · simpa [setBm, hk, lookupBm] using ih

/-! ## Claim C4 -/

/-- C4 (counterexample): the claim asserts that when the synthetic collapse
commit is a no-op, no further mutation happens — in particular no history
stripping.  In the code the bookmark command (line 102) and the whole strip
block (lines 104-116) run before the `changed == 1` check (line 118), so a
no-op collapse still strips the pulled history: in this concrete run the
collapse commit creates nothing (`commit ... none`) and `strip 8` is still
executed. -/
theorem collapse_noop_strip_cex :
    (syncOne (fun _ _ => false) ⟨false, "", "", false⟩ ⟨8, true, false, false, 5⟩
        "x" ⟨"up", none, some "mv a d", some "1", none⟩ 3
        ⟨5, 3, [("subtree@x", 2)], 6⟩).2 =
      [Event.pull "up" [], Event.update 2 true, Event.revertAll,
       Event.commit .collapse "subtree: x@8" none,
       Event.bookmarkSet "subtree@x" 2, Event.strip 8, Event.noChanges,
       Event.update 3 false] := by
  rfl

/-- C4 (amended): when the collapse commit is a no-op the sync reports no
changes, returns the working copy to `origin`, creates no commit and never
reaches the placement or merge steps, and the marker keeps its previous
value; however the strip of the pulled history still runs (unless
`--no-strip`) — stripping is not conditional on the collapse commit having
produced changes. -/
theorem collapse_noop_reports_but_strips (anc : Nat → Nat → Bool)
    (opts : Opts) (orc : VcsOracle) (nm : String) (st : Subtree)
    (origin : Nat) (repo : Repo) (dtext : String) (m : Nat)
    (hdt : st.destination = some dtext)
    (hc : collapseFlag st = true)
    (htip : ¬ repo.tip = orc.pullTip)
    (hnoop : orc.collapseNoop = true)
    (hstrip : opts.no_strip = false)
    (hbm : lookupBm (bmBase ++ nm) repo.bookmarks = some m)
    (hanc : anc m orc.pullTip = false) :
    ∃ repo' : Repo,
      (syncOne anc opts orc nm st origin repo).1 = .ok (repo', origin) ∧
      repo'.wdParent = origin ∧
      lookupBm (bmBase ++ nm) repo'.bookmarks = some m ∧
      Event.strip orc.pullTip ∈ (syncOne anc opts orc nm st origin repo).2 ∧
      ∀ e ∈ (syncOne anc opts orc nm st origin repo).2,
        createsCommit e = false ∧ isPlaceEv e = false ∧ isMergeEv e = false := by
  have hfilter : lookupBm (bmBase ++ nm)
      ((setBm (bmBase ++ nm) m repo.bookmarks).filter
        (fun kv => !anc kv.2 orc.pullTip)) = some m :=
    lookupBm_filter_setBm _ _ _ _ (by simp [hanc])
  simp only [syncOne, hdt, hc, hnoop, hstrip, hbm, commitStep, htip,
    Bool.false_eq_true, if_false, if_true, if_neg htip]
  refine ⟨_, rfl, rfl, ?_, ?_, ?_⟩
  · exact hfilter
  · simp
  · intro e he
    simp only [List.append_assoc, List.cons_append, List.nil_append,
      List.mem_cons, List.mem_append] at he
    rcases he with rfl | rfl | rfl | rfl | rfl | he | rfl | rfl | (rfl | he)
    · exact ⟨rfl, rfl, rfl⟩
    · exact ⟨rfl, rfl, rfl⟩
    · exact ⟨rfl, rfl, rfl⟩
    · exact ⟨rfl, rfl, rfl⟩
    · exact ⟨rfl, rfl, rfl⟩
    · obtain ⟨k, -, rfl⟩ := List.mem_map.mp he
      exact ⟨rfl, rfl, rfl⟩
    · exact ⟨rfl, rfl, rfl⟩
    · exact ⟨rfl, rfl, rfl⟩
    · exact ⟨rfl, rfl, rfl⟩
    · cases he

/-- C4 (witness): the amended statement at the concrete scenario. -/
theorem collapse_noop_reports_but_strips_witness :
    ∃ repo' : Repo,
      (syncOne (fun _ _ => false) ⟨false, "", "", false⟩
          ⟨8, true, false, false, 5⟩ "x"
          ⟨"up", none, some "mv a d", some "1", none⟩ 3
          ⟨5, 3, [("subtree@x", 2)], 6⟩).1 = .ok (repo', 3) ∧
      repo'.wdParent = 3 ∧
      lookupBm (bmBase ++ "x") repo'.bookmarks = some 2 ∧
      Event.strip 8 ∈
        (syncOne (fun _ _ => false) ⟨false, "", "", false⟩
          ⟨8, true, false, false, 5⟩ "x"
          ⟨"up", none, some "mv a d", some "1", none⟩ 3
          ⟨5, 3, [("subtree@x", 2)], 6⟩).2 ∧
      ∀ e ∈ (syncOne (fun _ _ => false) ⟨false, "", "", false⟩
          ⟨8, true, false, false, 5⟩ "x"
          ⟨"up", none, some "mv a d", some "1", none⟩ 3
          ⟨5, 3, [("subtree@x", 2)], 6⟩).2,
        createsCommit e = false ∧ isPlaceEv e = false ∧ isMergeEv e = false :=
  collapse_noop_reports_but_strips (fun _ _ => false) ⟨false, "", "", false⟩
    ⟨8, true, false, false, 5⟩ "x" ⟨"up", none, some "mv a d", some "1", none⟩
    3 ⟨5, 3, [("subtree@x", 2)], 6⟩ "mv a d" 2 rfl rfl (by decide) rfl rfl rfl
    rfl

/-! ## Successful-sync structure -/

lemma syncTail_eq (orc : VcsOracle) (nm : String) (st : Subtree)
    (dtext : String) (origin : Nat) (repo : Repo) (evs : List Event)
    (hpn : orc.placeNoop = false) (hmn : orc.mergeNoop = false) :
    syncTail orc nm st dtext origin repo evs =
      (.ok (⟨repo.nextId + 1, repo.nextId + 1, repo.bookmarks,
          repo.nextId + 2⟩, repo.nextId + 1),
       (evs ++ destEvents (_destinations dtext) ++
          (if keepFlag st then [] else [Event.removeClean])) ++
         [Event.commit .move (moveMsg nm) (some repo.nextId),
          Event.update origin false, Event.merge repo.nextId,
          Event.commit .merge (mergeMsg nm) (some (repo.nextId + 1))]) := by
  by_cases hk : keepFlag st = true <;>
    simp [syncTail, commitStep, hpn, hmn, hk]

lemma syncOne_success (anc : Nat → Nat → Bool) (opts : Opts) (orc : VcsOracle)
    (nm : String) (st : Subtree) (origin : Nat) (repo : Repo) (dtext : String)
    (hdt : st.destination = some dtext)
    (htip : ¬ repo.tip = orc.pullTip)
    (hcn : orc.collapseNoop = false)
    (hpn : orc.placeNoop = false)
    (hmn : orc.mergeNoop = false) :
    ∃ (pre : List Event) (pc : Nat) (bms : List (String × Nat)),
      syncOne anc opts orc nm st origin repo =
        (.ok (⟨pc + 1, pc + 1, bms, pc + 2⟩, pc + 1),
         pre ++ [Event.commit .move (moveMsg nm) (some pc),
           Event.update origin false, Event.merge pc,
           Event.commit .merge (mergeMsg nm) (some (pc + 1))]) ∧
      repo.nextId ≤ pc := by
  by_cases hc : collapseFlag st = true
  · cases hlk : lookupBm (bmBase ++ nm) repo.bookmarks with
    | some m =>
        by_cases hns : opts.no_strip = true
        · simp only [syncOne, hdt, if_neg htip, hc, hcn, hlk, hns,
            commitStep, Bool.false_eq_true, if_false, if_true]
          rw [syncTail_eq _ _ _ _ _ _ _ hpn hmn]
          exact ⟨_, _, _, rfl, le_trans (Nat.le_max_left _ _) (Nat.le_succ _)⟩
        · simp only [syncOne, hdt, if_neg htip, hc, hcn, hlk, hns,
            commitStep, Bool.false_eq_true, if_false, if_true]
          rw [syncTail_eq _ _ _ _ _ _ _ hpn hmn]
          exact ⟨_, _, _, rfl, le_trans (Nat.le_max_left _ _) (Nat.le_succ _)⟩
    | none =>
        by_cases hns : opts.no_strip = true
        · simp only [syncOne, hdt, if_neg htip, hc, hcn, hlk, hns,
            commitStep, Bool.false_eq_true, if_false, if_true]
          rw [syncTail_eq _ _ _ _ _ _ _ hpn hmn]
          exact ⟨_, _, _, rfl, le_trans (Nat.le_max_left _ _) (Nat.le_succ _)⟩
        · simp only [syncOne, hdt, if_neg htip, hc, hcn, hlk, hns,
            commitStep, Bool.false_eq_true, if_false, if_true]
          rw [syncTail_eq _ _ _ _ _ _ _ hpn hmn]
          exact ⟨_, _, _, rfl, le_trans (Nat.le_max_left _ _) (Nat.le_succ _)⟩
  · simp only [syncOne, hdt, if_neg htip, hc, Bool.false_eq_true, if_false]
    rw [syncTail_eq _ _ _ _ _ _ _ hpn hmn]
    exact ⟨_, _, _, rfl, Nat.le_max_left _ _⟩

/-! ## Claim C7 -/

/-- C7: merge composition.  First part: a spec that completes successfully
with changes returns as the new `origin` exactly the merge commit it just
created (`pc + 1`, the target of its final `CommitMerge` event), which is
distinct from the origin it started from; its own merge-back checks out the
origin it was given (`update origin`) before merging.  Second part: the
batch loop hands exactly that returned origin (and repository) to the next
spec.  Together: in a run over specs A then B where A completes with
changes, B's merge-back target is A's final merge commit, not the pre-run
origin. -/
theorem merge_composition (anc : Nat → Nat → Bool) (opts : Opts)
    (oracle : Nat → VcsOracle) :
    (∀ (i : Nat) (nm : String) (st : Subtree) (origin : Nat) (repo : Repo)
       (dtext : String),
      st.destination = some dtext →
      ¬ repo.tip = (oracle i).pullTip →
      (oracle i).collapseNoop = false →
      (oracle i).placeNoop = false →
      (oracle i).mergeNoop = false →
      origin < repo.nextId →
      ∃ (pre : List Event) (pc : Nat) (bms : List (String × Nat)),
        syncOne anc opts (oracle i) nm st origin repo =
          (.ok (⟨pc + 1, pc + 1, bms, pc + 2⟩, pc + 1),
           pre ++ [Event.commit .move (moveMsg nm) (some pc),
             Event.update origin false, Event.merge pc,
             Event.commit .merge (mergeMsg nm) (some (pc + 1))]) ∧
        ¬ origin = pc + 1) ∧
    (∀ (nm : String) (st : Subtree) (rest : List (String × Subtree)) (i : Nat)
       (origin : Nat) (repo r' : Repo) (o' : Nat) (tr : List Event),
      syncOne anc opts (oracle i) nm st origin repo = (.ok (r', o'), tr) →
      runSpecs anc opts oracle i ((nm, st) :: rest) origin repo =
        ((runSpecs anc opts oracle (i + 1) rest o' r').1,
         tr ++ (runSpecs anc opts oracle (i + 1) rest o' r').2)) := by
  constructor
  · intro i nm st origin repo dtext hdt htip hcn hpn hmn horig
    obtain ⟨pre, pc, bms, heq, hle⟩ :=
      syncOne_success anc opts (oracle i) nm st origin repo dtext hdt htip
        hcn hpn hmn
    exact ⟨pre, pc, bms, heq, by omega⟩
  · intro nm st rest i origin repo r' o' tr hsync
    simp only [runSpecs, hsync]

/-- C7 (witness): a concrete two-spec batch: spec "a" produces merge commit
`7` from origin `0`, and the loop hands origin `7` and the advanced
repository to spec "b". -/
theorem merge_composition_witness :
    (∃ (pre : List Event) (pc : Nat) (bms : List (String × Nat)),
      syncOne (fun _ _ => false) ⟨false, "", "", false⟩
          ⟨5, false, false, false, 0⟩ "a"
          ⟨"up", none, some "mv x d", none, none⟩ 0 ⟨0, 0, [], 1⟩ =
        (.ok (⟨pc + 1, pc + 1, bms, pc + 2⟩, pc + 1),
         pre ++ [Event.commit .move (moveMsg "a") (some pc),
           Event.update 0 false, Event.merge pc,
           Event.commit .merge (mergeMsg "a") (some (pc + 1))]) ∧
      ¬ (0 : Nat) = pc + 1) ∧
    runSpecs (fun _ _ => false) ⟨false, "", "", false⟩
        (fun _ => ⟨5, false, false, false, 0⟩) 0
        [("a", ⟨"up", none, some "mv x d", none, none⟩),
         ("b", ⟨"vp", none, some "mv y e", none, none⟩)] 0 ⟨0, 0, [], 1⟩ =
      ((runSpecs (fun _ _ => false) ⟨false, "", "", false⟩
          (fun _ => ⟨5, false, false, false, 0⟩) 1
          [("b", ⟨"vp", none, some "mv y e", none, none⟩)] 7 ⟨7, 7, [], 8⟩).1,
       (syncOne (fun _ _ => false) ⟨false, "", "", false⟩
          ⟨5, false, false, false, 0⟩ "a"
          ⟨"up", none, some "mv x d", none, none⟩ 0 ⟨0, 0, [], 1⟩).2 ++
        (runSpecs (fun _ _ => false) ⟨false, "", "", false⟩
          (fun _ => ⟨5, false, false, false, 0⟩) 1
          [("b", ⟨"vp", none, some "mv y e", none, none⟩)] 7 ⟨7, 7, [], 8⟩).2) :=
  ⟨(merge_composition (fun _ _ => false) ⟨false, "", "", false⟩
      (fun _ => ⟨5, false, false, false, 0⟩)).1 0 "a"
      ⟨"up", none, some "mv x d", none, none⟩ 0 ⟨0, 0, [], 1⟩ "mv x d" rfl
      (by decide) rfl rfl rfl (by decide),
   (merge_composition (fun _ _ => false) ⟨false, "", "", false⟩
      (fun _ => ⟨5, false, false, false, 0⟩)).2 "a"
      ⟨"up", none, some "mv x d", none, none⟩
      [("b", ⟨"vp", none, some "mv y e", none, none⟩)] 0 0 ⟨0, 0, [], 1⟩
      ⟨7, 7, [], 8⟩ 7 _ (by rfl)⟩

/-! ## Counting and event-shape lemmas for the marker claim -/

lemma countBm_cons (k k' : String) (v : Nat) (l : List (String × Nat)) :
    countBm k ((k', v) :: l) = (if k' = k then 1 else 0) + countBm k l := by
  by_cases hk : k' = k <;>
    simp [countBm, List.filter_cons, hk, Nat.add_comm]

lemma countBm_filter_le (k : String) (pred : String × Nat → Bool)
    (l : List (String × Nat)) : countBm k (l.filter pred) ≤ countBm k l := by
  unfold countBm
  exact ((List.filter_sublist l).filter _).length_le

lemma countBm_zero_filter (k : String) (pred : String × Nat → Bool)
    (l : List (String × Nat)) (h : countBm k l = 0) :
    countBm k (l.filter pred) = 0 :=
  Nat.le_zero.mp (h ▸ countBm_filter_le k pred l)

lemma countBm_setBm (k : String) (v : Nat) (l : List (String × Nat))
    (hc : countBm k l ≤ 1) : countBm k (setBm k v l) = 1 := by
  induction l with
  | nil => simp [setBm, countBm]
  | cons kv rest ih =>
      obtain ⟨k', v'⟩ := kv
      by_cases hk : k' = k
      · rw [countBm_cons, if_pos hk] at hc
        have hrest : countBm k rest = 0 := by omega
        simp only [setBm, if_pos hk]
        rw [countBm_cons, if_pos rfl, hrest]
      · rw [countBm_cons, if_neg hk, Nat.zero_add] at hc
        simp only [setBm, if_neg hk]
        rw [countBm_cons, if_neg hk, Nat.zero_add]
        exact ih hc

lemma countBm_filter_setBm (k : String) (v : Nat) (l : List (String × Nat))
    (pred : String × Nat → Bool) (hp : pred (k, v) = true)
    (hc : countBm k l ≤ 1) :
    countBm k ((setBm k v l).filter pred) = 1 := by
  induction l with
  | nil => simp [setBm, List.filter_cons, hp, countBm]
  | cons kv rest ih =>
      obtain ⟨k', v'⟩ := kv
      by_cases hk : k' = k
      · rw [countBm_cons, if_pos hk] at hc
        have hrest : countBm k rest = 0 := by omega
        simp only [setBm, if_pos hk, List.filter_cons, hp, if_true]
        rw [countBm_cons, if_pos rfl, countBm_zero_filter _ pred _ hrest]
      · rw [countBm_cons, if_neg hk, Nat.zero_add] at hc
        simp only [setBm, if_neg hk, List.filter_cons]
        by_cases hpk : pred (k', v') = true
        · simp only [hpk, if_true]
          rw [countBm_cons, if_neg hk, Nat.zero_add]
          exact ih hc
        · simp only [hpk, Bool.false_eq_true, if_false]
          exact ih hc

lemma destEvents_cases (ds : List (List String)) :
    ∀ e ∈ destEvents ds,
      (∃ p, e = Event.mkdir p) ∨ (∃ a, e = Event.rename a) ∨
        ∃ a, e = Event.copy a := by
  intro e he
  simp only [destEvents, List.mem_flatMap] at he
  obtain ⟨d, -, he⟩ := he
  cases d with
  | nil => simp at he
  | cons op args =>
      by_cases h1 : op = "mkdir"
      · subst h1
        cases args with
        | nil => simp at he
        | cons a rest =>
            simp at he
            exact Or.inl ⟨a, he⟩
      · by_cases h2 : op = "mv"
        · subst h2
          simp at he
          exact Or.inr (Or.inl ⟨args, he⟩)
        · by_cases h3 : op = "cp"
          · subst h3
            simp at he
            exact Or.inr (Or.inr ⟨args, he⟩)
          · simp [h1, h2, h3] at he

lemma collapseCommits_destEvents (ds : List (List String)) :
    collapseCommits (destEvents ds) = [] := by
  rw [collapseCommits, List.filterMap_eq_nil_iff]
  intro e he
  rcases destEvents_cases ds e he with ⟨p, rfl⟩ | ⟨a, rfl⟩ | ⟨a, rfl⟩ <;> rfl

lemma destEvents_no_bookmark (ds : List (List String)) :
    ∀ e ∈ destEvents ds, isBookmarkEv e = false := by
  intro e he
  rcases destEvents_cases ds e he with ⟨p, rfl⟩ | ⟨a, rfl⟩ | ⟨a, rfl⟩ <;> rfl

lemma collapseCommits_bookmarkDels (ks : List String) :
    collapseCommits (ks.map Event.bookmarkDel) = [] := by
  rw [collapseCommits, List.filterMap_eq_nil_iff]
  intro e he
  obtain ⟨k, -, rfl⟩ := List.mem_map.mp he
  rfl

lemma commitStep_snd (k : CommitKind) (m : String) (noop : Bool) (repo : Repo)
    (evs : List Event) :
    (commitStep k m noop repo evs).2 =
      evs ++ [Event.commit k m (if noop then none else some repo.nextId)] := by
  cases noop <;> rfl

lemma commitStep_bookmarks (k : CommitKind) (m : String) (noop : Bool)
    (repo : Repo) (evs : List Event) :
    (commitStep k m noop repo evs).1.bookmarks = repo.bookmarks := by
  cases noop <;> rfl

lemma syncTail_bookmarks (orc : VcsOracle) (nm : String) (st : Subtree)
    (dtext : String) (origin : Nat) (repo : Repo) (evs : List Event)
    (r' : Repo) (o' : Nat)
    (h : (syncTail orc nm st dtext origin repo evs).1 = .ok (r', o')) :
    r'.bookmarks = repo.bookmarks := by
  unfold syncTail at h
  simp only [Except.ok.injEq, Prod.mk.injEq] at h
  rw [← h.1]
  rw [commitStep_bookmarks]
  exact commitStep_bookmarks _ _ _ _ _

lemma syncTail_events_shape (orc : VcsOracle) (nm : String) (st : Subtree)
    (dtext : String) (origin : Nat) (repo : Repo) (evs : List Event) :
    ∀ e ∈ (syncTail orc nm st dtext origin repo evs).2,
      e ∈ evs ∨ e ∈ destEvents (_destinations dtext) ∨ e = Event.removeClean ∨
      (∃ k m c, e = Event.commit k m c) ∨ (∃ v b, e = Event.update v b) ∨
      ∃ v, e = Event.merge v := by
  intro e he
  unfold syncTail at he
  simp only [commitStep_snd] at he
  by_cases hk : keepFlag st = true <;>
    simp only [hk, if_true, Bool.false_eq_true, if_false, List.mem_append,
      List.mem_cons, List.mem_singleton, List.not_mem_nil, or_false] at he <;>
    aesop

lemma collapseCommits_append (a b : List Event) :
    collapseCommits (a ++ b) = collapseCommits a ++ collapseCommits b := by
  simp [collapseCommits]

lemma filterMap_collapse_destEvents (ds : List (List String)) :
    List.filterMap collapseCommitOf (destEvents ds) = [] :=
  collapseCommits_destEvents ds

lemma filterMap_collapse_bookmarkDels (ks : List String) :
    List.filterMap collapseCommitOf (ks.map Event.bookmarkDel) = [] :=
  collapseCommits_bookmarkDels ks

lemma syncOne_collapse_step (anc : Nat → Nat → Bool) (opts : Opts)
    (orc : VcsOracle) (nm : String) (st : Subtree) (origin : Nat) (repo : Repo)
    (dtext : String)
    (hdt : st.destination = some dtext)
    (hc : collapseFlag st = true)
    (hcn : orc.collapseNoop = false)
    (hpn : orc.placeNoop = false)
    (hmn : orc.mergeNoop = false)
    (hwf : repo.tip < repo.nextId)
    (hfresh : repo.nextId ≤ orc.pullTip)
    (hanc : ∀ a b, anc a b = true → a ≤ b)
    (hcount : countBm (bmBase ++ nm) repo.bookmarks ≤ 1) :
    ∃ (r' : Repo) (tr : List Event) (o' : Nat),
      syncOne anc opts orc nm st origin repo = (.ok (r', o'), tr) ∧
      r'.tip < r'.nextId ∧
      countBm (bmBase ++ nm) r'.bookmarks = 1 ∧
      lookupBm (bmBase ++ nm) r'.bookmarks = some (orc.pullTip + 1) ∧
      collapseCommits tr = [orc.pullTip + 1] := by
  have htip : ¬ repo.tip = orc.pullTip := by omega
  have hM : repo.nextId ⊔ (orc.pullTip + 1) = orc.pullTip + 1 :=
    Nat.max_eq_right (by omega)
  have hancpt : anc (orc.pullTip + 1) orc.pullTip = false := by
    cases hh : anc (orc.pullTip + 1) orc.pullTip
    · rfl
    · exact absurd (hanc _ _ hh) (by omega)
  cases hlk : lookupBm (bmBase ++ nm) repo.bookmarks with
  | some m =>
      by_cases hns : opts.no_strip = true
      · simp only [syncOne, hdt, if_neg htip, hc, hcn, hlk, hns, commitStep,
          Bool.false_eq_true, if_false, if_true, hM]
        rw [syncTail_eq _ _ _ _ _ _ _ hpn hmn]
        refine ⟨_, _, _, rfl, Nat.lt_succ_self _, countBm_setBm _ _ _ hcount,
          lookupBm_setBm_self _ _ _, ?_⟩
        by_cases hk : keepFlag st = true <;>
          simp [hk, collapseCommits, List.filterMap_append, List.filterMap_cons,
            collapseCommitOf, filterMap_collapse_destEvents]
      · simp only [syncOne, hdt, if_neg htip, hc, hcn, hlk, hns, commitStep,
          Bool.false_eq_true, if_false, if_true, hM]
        rw [syncTail_eq _ _ _ _ _ _ _ hpn hmn]
        refine ⟨_, _, _, rfl, Nat.lt_succ_self _,
          countBm_filter_setBm _ _ _ _ (by simp [hancpt]) hcount,
          lookupBm_filter_setBm _ _ _ _ (by simp [hancpt]), ?_⟩
        by_cases hk : keepFlag st = true <;>
          simp [hk, collapseCommits, List.filterMap_append, List.filterMap_cons,
            collapseCommitOf, filterMap_collapse_destEvents,
            filterMap_collapse_bookmarkDels]
  | none =>
      by_cases hns : opts.no_strip = true
      · simp only [syncOne, hdt, if_neg htip, hc, hcn, hlk, hns, commitStep,
          Bool.false_eq_true, if_false, if_true, hM]
        rw [syncTail_eq _ _ _ _ _ _ _ hpn hmn]
        refine ⟨_, _, _, rfl, Nat.lt_succ_self _, countBm_setBm _ _ _ hcount,
          lookupBm_setBm_self _ _ _, ?_⟩
        by_cases hk : keepFlag st = true <;>
          simp [hk, collapseCommits, List.filterMap_append, List.filterMap_cons,
            collapseCommitOf, filterMap_collapse_destEvents]
      · simp only [syncOne, hdt, if_neg htip, hc, hcn, hlk, hns, commitStep,
          Bool.false_eq_true, if_false, if_true, hM]
        rw [syncTail_eq _ _ _ _ _ _ _ hpn hmn]
        refine ⟨_, _, _, rfl, Nat.lt_succ_self _,
          countBm_filter_setBm _ _ _ _ (by simp [hancpt]) hcount,
          lookupBm_filter_setBm _ _ _ _ (by simp [hancpt]), ?_⟩
        by_cases hk : keepFlag st = true <;>
          simp [hk, collapseCommits, List.filterMap_append, List.filterMap_cons,
            collapseCommitOf, filterMap_collapse_destEvents,
            filterMap_collapse_bookmarkDels]

lemma syncOne_no_collapse (anc : Nat → Nat → Bool) (opts : Opts)
    (o : VcsOracle) (nm : String) (st : Subtree) (origin : Nat) (r : Repo)
    (hc : collapseFlag st = false) :
    (∀ e ∈ (syncOne anc opts o nm st origin r).2, isBookmarkEv e = false) ∧
    ∀ r' o', (syncOne anc opts o nm st origin r).1 = .ok (r', o') →
      r'.bookmarks = r.bookmarks := by
  cases hdt : st.destination with
  | none => simp [syncOne, hdt]
  | some dtext =>
      by_cases htip : r.tip = o.pullTip
      · constructor
        · intro e he
          simp only [syncOne, hdt, htip, if_true, List.mem_cons, List.mem_append,
            List.mem_singleton, List.not_mem_nil, or_false] at he
          rcases he with he | he <;> subst he <;> rfl
        · intro r' o' h
          simp only [syncOne, hdt, htip, if_true, Except.ok.injEq,
            Prod.mk.injEq] at h
          rw [← h.1]
      · constructor
        · intro e he
          simp only [syncOne, hdt, if_neg htip, hc, Bool.false_eq_true,
            if_false] at he
          rcases syncTail_events_shape _ _ _ _ _ _ _ e he with
            he | he | he | ⟨k, m, c, rfl⟩ | ⟨v, b, rfl⟩ | ⟨v, rfl⟩
          · simp only [List.cons_append, List.nil_append, List.mem_cons,
              List.not_mem_nil, or_false] at he
            rcases he with rfl | rfl <;> rfl
          · exact destEvents_no_bookmark _ e he
          · subst he; rfl
          · rfl
          · rfl
          · rfl
        · intro r' o' h
          simp only [syncOne, hdt, if_neg htip, hc, Bool.false_eq_true,
            if_false] at h
          have h2 := syncTail_bookmarks _ _ _ _ _ _ _ _ _ h
          exact h2

lemma iterateSyncs_marker (anc : Nat → Nat → Bool) (opts : Opts) (nm : String)
    (st : Subtree) (dtext : String)
    (hdt : st.destination = some dtext)
    (hc : collapseFlag st = true)
    (hanc : ∀ a b, anc a b = true → a ≤ b) :
    ∀ (os : List VcsOracle) (o : VcsOracle) (repo : Repo),
      repo.tip < repo.nextId →
      countBm (bmBase ++ nm) repo.bookmarks ≤ 1 →
      freshRun anc opts nm st (o :: os) repo = true →
      countBm (bmBase ++ nm)
          (iterateSyncs anc opts nm st (o :: os) repo).1.bookmarks = 1 ∧
      lookupBm (bmBase ++ nm)
          (iterateSyncs anc opts nm st (o :: os) repo).1.bookmarks =
        (collapseCommits (iterateSyncs anc opts nm st (o :: os) repo).2).getLast? ∧
      (collapseCommits (iterateSyncs anc opts nm st (o :: os) repo).2).length =
        os.length + 1 := by
  intro os
  induction os with
  | nil =>
      intro o repo hwf hcount hrun
      simp only [freshRun, Bool.and_eq_true, Nat.ble_eq,
        Bool.not_eq_true'] at hrun
      obtain ⟨⟨⟨⟨hfresh, hcn⟩, hpn⟩, hmn⟩, -⟩ := hrun
      obtain ⟨r', tr, o', heq, hwf', hcnt', hlk', hcc⟩ :=
        syncOne_collapse_step anc opts o nm st repo.wdParent repo dtext hdt hc
          hcn hpn hmn hwf hfresh hanc hcount
      simp only [iterateSyncs, heq]
      refine ⟨hcnt', ?_, ?_⟩
      · rw [List.append_nil, hcc, hlk']
        simp
      · rw [List.append_nil, hcc]
        simp
  | cons o2 os ih =>
      intro o repo hwf hcount hrun
      simp only [freshRun, Bool.and_eq_true, Nat.ble_eq,
        Bool.not_eq_true'] at hrun
      obtain ⟨⟨⟨⟨hfresh, hcn⟩, hpn⟩, hmn⟩, hrest⟩ := hrun
      obtain ⟨r', tr, o', heq, hwf', hcnt', hlk', hcc⟩ :=
        syncOne_collapse_step anc opts o nm st repo.wdParent repo dtext hdt hc
          hcn hpn hmn hwf hfresh hanc hcount
      simp only [heq] at hrest
      obtain ⟨ih1, ih2, ih3⟩ := ih o2 r' hwf' hcnt'.le hrest
      have hstep : iterateSyncs anc opts nm st (o :: o2 :: os) repo =
          ((iterateSyncs anc opts nm st (o2 :: os) r').1,
           tr ++ (iterateSyncs anc opts nm st (o2 :: os) r').2) := by
        rw [iterateSyncs, heq]
      rw [hstep]
      refine ⟨ih1, ?_, ?_⟩
      · rw [collapseCommits_append, hcc]
        have hne2 : collapseCommits
            (iterateSyncs anc opts nm st (o2 :: os) r').2 ≠ [] := by
          intro h0
          rw [h0] at ih3
          simp at ih3
        rw [List.getLast?_append_of_ne_nil _ hne2]
        exact ih2
      · rw [collapseCommits_append, hcc]
        simp only [List.length_append, List.length_cons, List.length_nil, ih3]
        omega

/-! ## Claim C6 -/

/-- C6: after a run of N successful collapsing syncs of one subtree (each
pull bringing new upstream changesets and each commit creating a
changeset), exactly one bookmark entry exists for the subtree's marker
name, it points at the last of the N synthetic collapse commits recorded
in the trace (updated in place on every sync, not recreated), and the
trace records exactly N collapse commits; moreover a sync of a spec whose
collapse flag is false emits no bookmark operation at all and leaves the
bookmark table unchanged. -/
theorem collapse_marker_unique (anc : Nat → Nat → Bool) (opts : Opts)
    (nm : String) (st : Subtree) (dtext : String) (os : List VcsOracle)
    (repo : Repo)
    (hdt : st.destination = some dtext)
    (hc : collapseFlag st = true)
    (hanc : ∀ a b, anc a b = true → a ≤ b)
    (hwf : repo.tip < repo.nextId)
    (hcount : countBm (bmBase ++ nm) repo.bookmarks ≤ 1)
    (hrun : freshRun anc opts nm st os repo = true)
    (hne : os ≠ []) :
    (countBm (bmBase ++ nm)
        (iterateSyncs anc opts nm st os repo).1.bookmarks = 1 ∧
     lookupBm (bmBase ++ nm)
        (iterateSyncs anc opts nm st os repo).1.bookmarks =
       (collapseCommits (iterateSyncs anc opts nm st os repo).2).getLast? ∧
     (collapseCommits (iterateSyncs anc opts nm st os repo).2).length =
       os.length) ∧
    (∀ (st' : Subtree) (o : VcsOracle) (origin : Nat) (r : Repo),
      collapseFlag st' = false →
      (∀ e ∈ (syncOne anc opts o nm st' origin r).2, isBookmarkEv e = false) ∧
      ∀ r' o', (syncOne anc opts o nm st' origin r).1 = .ok (r', o') →
        r'.bookmarks = r.bookmarks) := by
  constructor
  · cases os with
    | nil => exact absurd rfl hne
    | cons o os' =>
        obtain ⟨h1, h2, h3⟩ := iterateSyncs_marker anc opts nm st dtext hdt hc
          hanc os' o repo hwf hcount hrun
        exact ⟨h1, h2, by rw [h3]; rfl⟩
  · intro st' o origin r hc'
    exact syncOne_no_collapse anc opts o nm st' origin r hc'

/-- C6 (witness): two successful collapsing syncs of subtree "x" starting
from a repository without the marker: afterwards exactly one marker entry
exists, pointing at the second synthetic collapse commit of the trace. -/
theorem collapse_marker_unique_witness :
    countBm (bmBase ++ "x")
        (iterateSyncs (fun _ _ => false) ⟨false, "", "", false⟩ "x"
          ⟨"up", none, some "mv a d", some "1", none⟩
          [⟨1, false, false, false, 0⟩, ⟨9, false, false, false, 0⟩]
          ⟨0, 0, [], 1⟩).1.bookmarks = 1 ∧
    lookupBm (bmBase ++ "x")
        (iterateSyncs (fun _ _ => false) ⟨false, "", "", false⟩ "x"
          ⟨"up", none, some "mv a d", some "1", none⟩
          [⟨1, false, false, false, 0⟩, ⟨9, false, false, false, 0⟩]
          ⟨0, 0, [], 1⟩).1.bookmarks =
      (collapseCommits
        (iterateSyncs (fun _ _ => false) ⟨false, "", "", false⟩ "x"
          ⟨"up", none, some "mv a d", some "1", none⟩
          [⟨1, false, false, false, 0⟩, ⟨9, false, false, false, 0⟩]
          ⟨0, 0, [], 1⟩).2).getLast? ∧
    (collapseCommits
        (iterateSyncs (fun _ _ => false) ⟨false, "", "", false⟩ "x"
          ⟨"up", none, some "mv a d", some "1", none⟩
          [⟨1, false, false, false, 0⟩, ⟨9, false, false, false, 0⟩]
          ⟨0, 0, [], 1⟩).2).length =
      [(⟨1, false, false, false, 0⟩ : VcsOracle),
        ⟨9, false, false, false, 0⟩].length :=
  (collapse_marker_unique (fun _ _ => false) ⟨false, "", "", false⟩ "x"
      ⟨"up", none, some "mv a d", some "1", none⟩ "mv a d"
      [⟨1, false, false, false, 0⟩, ⟨9, false, false, false, 0⟩]
      ⟨0, 0, [], 1⟩ rfl (by decide) (by simp) (by decide) (by decide)
      (by decide) (by decide)).1

end HgSubtree
